import Mathlib

/-!
Shallow embedding of the CC-sMind knowledge-graph application core:
the force-directed graph visualization component (its simulation effect,
tick renderer, drag handlers, resize behaviour and color scale) and the
graph-merge operation `updateGraph` of `App.tsx`.

Numeric force details that live inside the d3 library (charge, link,
center, collide force arithmetic, and the initial position seeding) are
abstracted into a `ForceModel` parameter; everything the repository's own
code determines (effect guard, copying, link resolution, tick handler,
drag handlers, effect dependency list, merge logic) is embedded directly.
-/

/-- A knowledge-graph node as held by the caller (`types.ts`). -/
structure GraphNode where
  id : String
  group : String
  val : Option Int
deriving DecidableEq, Repr

/-- A directed labelled relationship between two node ids (`types.ts`). -/
structure GraphLink where
  source : String
  target : String
  relationship : String
deriving DecidableEq, Repr

/-- The `(nodes, links)` snapshot passed into the engine (`types.ts`). -/
structure KnowledgeGraphData where
  nodes : List GraphNode
  links : List GraphLink
deriving DecidableEq, Repr

/-- Viewport dimensions held in component state. -/
structure Dimensions where
  width : Int
  height : Int
deriving DecidableEq, Repr

/-- A simulation-owned node record: the spread copy of a caller node plus
the mutable fields d3 adds (position, velocity, optional pin). -/
structure SimNode where
  id : String
  group : String
  val : Option Int
  x : ℚ
  y : ℚ
  vx : ℚ
  vy : ℚ
  fx : Option ℚ
  fy : Option ℚ
deriving DecidableEq, Repr

/-- A link after d3 `forceLink.id` resolution: endpoints are indices into
the simulation's node array instead of id strings. -/
structure ResolvedLink where
  source : Nat
  target : Nat
  relationship : String
deriving DecidableEq, Repr

/-- The d3 force-simulation state owned by one effect run. -/
structure Simulation where
  nodes : List SimNode
  links : List ResolvedLink
  dims : Dimensions
  alpha : ℚ
  alphaTarget : ℚ
  running : Bool
deriving DecidableEq, Repr

/-- The numeric parts supplied by the d3 library: initial placement of the
i-th node, the per-tick force pass (given the centering viewport and the
current alpha), and the alpha schedule constants. -/
structure ForceModel where
  seedX : Nat → ℚ
  seedY : Nat → ℚ
  force : Dimensions → ℚ → List SimNode → List SimNode
  alphaDecay : ℚ
  alphaMin : ℚ

/-- d3 default velocity decay factor applied during integration. -/
def velocityDecay : ℚ := 3 / 5

/-- The spread copy `{...d}` of a caller node, plus the library-seeded
position and zeroed velocity; no pin initially. -/
def mkSimNode (FM : ForceModel) (i : Nat) (d : GraphNode) : SimNode :=
  { id := d.id, group := d.group, val := d.val,
    x := FM.seedX i, y := FM.seedY i, vx := 0, vy := 0, fx := none, fy := none }

/-- Copies of all snapshot nodes, indexed from `i`. -/
def mkSimNodes (FM : ForceModel) : Nat → List GraphNode → List SimNode
  | _, [] => []
  | i, d :: rest => mkSimNode FM i d :: mkSimNodes FM (i + 1) rest

/-- Index of the last node whose id matches, mirroring the id→node map d3
`forceLink` builds (later duplicate ids overwrite earlier entries). -/
def lastIdxOf (ident : String) : List SimNode → Option Nat
  | [] => none
  | n :: rest =>
    match lastIdxOf ident rest with
    | some j => some (j + 1)
    | none => if n.id = ident then some 0 else none

/-- d3 `forceLink.id` resolution of a single link; a missing endpoint id
throws `node not found`. -/
def resolveLink (ns : List SimNode) (l : GraphLink) : Except String ResolvedLink :=
  match lastIdxOf l.source ns with
  | none => .error ("node not found: " ++ l.source)
  | some s =>
    match lastIdxOf l.target ns with
    | none => .error ("node not found: " ++ l.target)
    | some t => .ok { source := s, target := t, relationship := l.relationship }

/-- Sequential resolution of all links; the first failure aborts setup. -/
def resolveLinks (ns : List SimNode) : List GraphLink → Except String (List ResolvedLink)
  | [] => .ok []
  | l :: rest =>
    match resolveLink ns l with
    | .error e => .error e
    | .ok r =>
      match resolveLinks ns rest with
      | .error e => .error e
      | .ok rs => .ok (r :: rs)

/-- Result of one run of the simulation effect: the empty-graph guard
returns early, a link-resolution failure throws, otherwise a running
simulation is set up. -/
inductive EffectOutcome
  | idle
  | failed (msg : String)
  | started (s : Simulation)
deriving DecidableEq, Repr

/-- The body of the `GraphVisualization` D3 effect: guard on an empty node
list, copy nodes and links, resolve link endpoints, start the simulation. -/
def runGraphEffect (FM : ForceModel) (data : KnowledgeGraphData)
    (dims : Dimensions) : EffectOutcome :=
  if data.nodes.length = 0 then .idle
  else
    let ns := mkSimNodes FM 0 data.nodes
    match resolveLinks ns data.links with
    | .error e => .failed e
    | .ok rl =>
      .started { nodes := ns, links := rl, dims := dims,
                 alpha := 1, alphaTarget := 0, running := true }

/-- d3 per-node position integration: a pinned coordinate is copied from
the pin and the velocity zeroed; a free coordinate integrates the decayed
velocity. -/
def integrate (n : SimNode) : SimNode :=
  let n1 :=
    match n.fx with
    | some px => { n with x := px, vx := 0 }
    | none => { n with vx := n.vx * velocityDecay, x := n.x + n.vx * velocityDecay }
  match n1.fy with
  | some py => { n1 with y := py, vy := 0 }
  | none => { n1 with vy := n1.vy * velocityDecay, y := n1.y + n1.vy * velocityDecay }

/-- One d3 `simulation.tick`: advance alpha toward the target, apply the
force pass, then integrate every node. -/
def tick (FM : ForceModel) (s : Simulation) : Simulation :=
  let a := s.alpha + (s.alphaTarget - s.alpha) * FM.alphaDecay
  { s with alpha := a,
           nodes := (FM.force s.dims a s.nodes).map integrate }

/-- `simulation.stop()`: halts the internal stepper. -/
def simStop (s : Simulation) : Simulation := { s with running := false }

/-- One scheduled animation-frame step of the d3 stepper: tick while
running, stopping once alpha falls below the minimum. -/
def onFrame (FM : ForceModel) (s : Simulation) : Simulation :=
  if s.running then
    let s1 := tick FM s
    if s1.alpha < FM.alphaMin then simStop s1 else s1
  else s

/-- Replace the node at index `i` (mirrors mutating `d` inside a d3 drag
event handler). -/
def setNode : List SimNode → Nat → (SimNode → SimNode) → List SimNode
  | [], _, _ => []
  | n :: rest, 0, f => f n :: rest
  | n :: rest, Nat.succ i, f => n :: setNode rest i f

/-- `dragstarted`: when no other gesture is active, raise the alpha target
to 0.3 and restart the stepper; pin the node at its current position. -/
def dragstarted (active : Bool) (s : Simulation) (i : Nat) : Simulation :=
  let s1 := if active then s else { s with alphaTarget := 3 / 10, running := true }
  { s1 with nodes := setNode s1.nodes i (fun n => { n with fx := some n.x, fy := some n.y }) }

/-- `dragged`: move the pin to the pointer position. -/
def dragged (s : Simulation) (i : Nat) (px py : ℚ) : Simulation :=
  { s with nodes := setNode s.nodes i (fun n => { n with fx := some px, fy := some py }) }

/-- `dragended`: when no other gesture remains active, drop the alpha
target back to 0; clear the pin. -/
def dragended (active : Bool) (s : Simulation) (i : Nat) : Simulation :=
  let s1 := if active then s else { s with alphaTarget := 0 }
  { s1 with nodes := setNode s1.nodes i (fun n => { n with fx := none, fy := none }) }

/-- The d3 `schemeCategory10` palette used by the component's color scale. -/
def schemeCategory10 : List String :=
  ["#1f77b4", "#ff7f0e", "#2ca02c", "#d62728", "#9467bd",
   "#8c564b", "#e377c2", "#7f7f7f", "#bcbd22", "#17becf"]

/-- Position of a value in the scale's domain (the index map d3's ordinal
scale keeps). -/
def domIdx (g : String) : List String → Nat
  | [] => 0
  | x :: rest => if x = g then 0 else domIdx g rest + 1

/-- One call of the d3 ordinal scale: an unseen value is appended to the
domain; the returned color is the range entry at the value's domain index
modulo the range length. -/
def scaleCall (domain : List String) (g : String) : List String × String :=
  let dom := if g ∈ domain then domain else domain ++ [g]
  (dom, schemeCategory10.getD (domIdx g dom % schemeCategory10.length) "")

/-- Feed a sequence of group values through the ordinal scale, returning
the final domain. -/
def feedGroups : List String → List String → List String
  | dom, [] => dom
  | dom, g :: gs => feedGroups (scaleCall dom g).1 gs

/-- The color the session's scale returns for `g` after the groups `gs`
have been encountered. -/
def sessionColor (gs : List String) (g : String) : String :=
  (scaleCall (feedGroups [] gs) g).2

/-- A rendered SVG line for one link, as set by the tick handler. -/
structure RenderedLink where
  x1 : ℚ
  y1 : ℚ
  x2 : ℚ
  y2 : ℚ
deriving DecidableEq, Repr

/-- A rendered relationship label, positioned by the tick handler. -/
structure RenderedLinkLabel where
  x : ℚ
  y : ℚ
  text : String
deriving DecidableEq, Repr

/-- A rendered node circle (radius 8, fill from the group color scale). -/
structure RenderedCircle where
  cx : ℚ
  cy : ℚ
  r : ℚ
  fill : String
deriving DecidableEq, Repr

/-- A rendered node label: positioned at the node with the fixed offset
attributes `dx = 12`, `dy = ".35em"` set at creation. -/
structure RenderedNodeLabel where
  x : ℚ
  y : ℚ
  dx : ℚ
  dy : String
  text : String
deriving DecidableEq, Repr

/-- Default node used to total the index lookup of the renderer. -/
def defaultSimNode : SimNode :=
  { id := "", group := "", val := none,
    x := 0, y := 0, vx := 0, vy := 0, fx := none, fy := none }

/-- The node record a resolved link endpoint refers to. -/
def nodeAt (s : Simulation) (i : Nat) : SimNode := s.nodes.getD i defaultSimNode

/-- Tick handler: line endpoints copied from the resolved endpoint nodes. -/
def renderLink (s : Simulation) (l : ResolvedLink) : RenderedLink :=
  { x1 := (nodeAt s l.source).x, y1 := (nodeAt s l.source).y,
    x2 := (nodeAt s l.target).x, y2 := (nodeAt s l.target).y }

/-- Tick handler: relationship label at the midpoint of the endpoints. -/
def renderLinkLabel (s : Simulation) (l : ResolvedLink) : RenderedLinkLabel :=
  { x := ((nodeAt s l.source).x + (nodeAt s l.target).x) / 2,
    y := ((nodeAt s l.source).y + (nodeAt s l.target).y) / 2,
    text := l.relationship }

/-- The node circles of the data join, filled by calling the stateful
ordinal color scale on each node's group in document order. -/
def renderCircles (domain : List String) : List SimNode → List RenderedCircle
  | [] => []
  | n :: rest =>
    let r := scaleCall domain n.group
    { cx := n.x, cy := n.y, r := 8, fill := r.2 } :: renderCircles r.1 rest

/-- A node's text label as positioned by the tick handler. -/
def renderNodeLabel (n : SimNode) : RenderedNodeLabel :=
  { x := n.x, y := n.y, dx := 12, dy := ".35em", text := n.id }

/-- Everything the tick handler positions. -/
structure Scene where
  links : List RenderedLink
  linkLabels : List RenderedLinkLabel
  circles : List RenderedCircle
  labels : List RenderedNodeLabel
deriving DecidableEq, Repr

/-- The visual scene produced for the current simulation state. -/
def renderScene (s : Simulation) : Scene :=
  { links := s.links.map (renderLink s),
    linkLabels := s.links.map (renderLinkLabel s),
    circles := renderCircles [] s.nodes,
    labels := s.nodes.map renderNodeLabel }

/-- The rendered primitives of an effect outcome; an idle or failed effect
draws nothing. -/
def outcomeScene : EffectOutcome → Option Scene
  | .started s => some (renderScene s)
  | _ => none

/-- External stimuli reaching a live simulation. -/
inductive EngineOp
  | frame
  | dstart (active : Bool) (i : Nat)
  | dmove (i : Nat) (px py : ℚ)
  | dend (active : Bool) (i : Nat)
deriving DecidableEq, Repr

/-- Dispatch one stimulus. -/
def applyOp (FM : ForceModel) (s : Simulation) : EngineOp → Simulation
  | .frame => onFrame FM s
  | .dstart a i => dragstarted a s i
  | .dmove i px py => dragged s i px py
  | .dend a i => dragended a s i

/-- Run a stimulus sequence. -/
def applyOps (FM : ForceModel) (s : Simulation) : List EngineOp → Simulation
  | [] => s
  | op :: rest => applyOps FM (applyOp FM s op) rest

/-- The hosting component's state: the current snapshot, the viewport
dimensions and the outcome of the last effect run. -/
structure ComponentState where
  data : KnowledgeGraphData
  dims : Dimensions
  outcome : EffectOutcome
deriving DecidableEq, Repr

/-- Mounting runs the effect with the initial snapshot and dimensions. -/
def mount (FM : ForceModel) (data : KnowledgeGraphData) (dims : Dimensions) :
    ComponentState :=
  { data := data, dims := dims, outcome := runGraphEffect FM data dims }

/-- A viewport resize updates `dimensions`, which is in the effect's
dependency list, so the effect cleanup stops the old simulation and the
effect body re-runs on the unchanged snapshot at the new dimensions. -/
def onResizeEvent (FM : ForceModel) (st : ComponentState) (w h : Int) :
    ComponentState :=
  { data := st.data, dims := { width := w, height := h },
    outcome := runGraphEffect FM st.data { width := w, height := h } }

/-- A snapshot replacement likewise stops the old simulation and re-runs
the effect on the new snapshot. -/
def onDataEvent (FM : ForceModel) (st : ComponentState)
    (d : KnowledgeGraphData) : ComponentState :=
  { data := d, dims := st.dims, outcome := runGraphEffect FM d st.dims }

/-- An animation frame advances a started simulation and is otherwise
inert. -/
def onFrameEvent (FM : ForceModel) (st : ComponentState) : ComponentState :=
  match st.outcome with
  | .started s => { st with outcome := .started (onFrame FM s) }
  | _ => st

/-- The x-coordinate of the first simulation node, when one exists. -/
def firstNodeX (st : ComponentState) : Option ℚ :=
  match st.outcome with
  | .started s => (s.nodes.get? 0).map (fun n => n.x)
  | _ => none

/-- JS `Map` entries (insertion-ordered, unique keys). -/
abbrev NodeEntries := List (String × GraphNode)

/-- `Map.has`. -/
def entriesHas (m : NodeEntries) (k : String) : Bool :=
  m.any (fun p => p.1 == k)

/-- `Map.set`: updating an existing key keeps its position, a new key is
appended. -/
def entriesSet (m : NodeEntries) (k : String) (v : GraphNode) : NodeEntries :=
  if entriesHas m k then m.map (fun p => if p.1 == k then (k, v) else p)
  else m ++ [(k, v)]

/-- ASCII lowercasing of an id string (JS `toLowerCase` as used here). -/
def lowerCase (s : String) : String := String.mk (s.data.map Char.toLower)

/-- `new Map` built from the previous nodes keyed by lowercased id. -/
def entriesOfNodes : NodeEntries → List GraphNode → NodeEntries
  | m, [] => m
  | m, n :: rest => entriesOfNodes (entriesSet m (lowerCase n.id) n) rest

/-- The new-node pass of `updateGraph`: a proposed node is added (with
`val` forced to 5) only when its lowercased id is not yet a key. -/
def addNewNodes : NodeEntries → List GraphNode → NodeEntries
  | m, [] => m
  | m, node :: rest =>
    if entriesHas m (lowerCase node.id) then addNewNodes m rest
    else addNewNodes (entriesSet m (lowerCase node.id) { node with val := some 5 }) rest

/-- The dedup key  `source + "-" + target + "-" + relationship`. -/
def linkKey (l : GraphLink) : String :=
  l.source ++ "-" ++ l.target ++ "-" ++ l.relationship

/-- The new-link pass of `updateGraph`: skip keys already seen, then admit
a link only when both lowercased endpoints are keys of the merged node
map; admitted links and their keys are appended. -/
def addNewLinks (m : NodeEntries) :
    List GraphLink → List GraphLink → List String → List GraphLink × List String
  | [], acc, seen => (acc, seen)
  | l :: rest, acc, seen =>
    if linkKey l ∈ seen then addNewLinks m rest acc seen
    else if entriesHas m (lowerCase l.source) && entriesHas m (lowerCase l.target) then
      addNewLinks m rest (acc ++ [l]) (seen ++ [linkKey l])
    else addNewLinks m rest acc seen

/-- `updateGraph` from `App.tsx`: case-insensitive node merge, then link
admission against the merged node map. -/
def updateGraph (prev : KnowledgeGraphData) (newNodes : List GraphNode)
    (newLinks : List GraphLink) : KnowledgeGraphData :=
  let m := addNewNodes (entriesOfNodes [] prev.nodes) newNodes
  let r := addNewLinks m newLinks prev.links (prev.links.map linkKey)
  { nodes := m.map (fun p => p.2), links := r.1 }

/-- The caller-owned projection of a simulation node. -/
def staticOf (n : SimNode) : GraphNode :=
  { id := n.id, group := n.group, val := n.val }

/-- A force pass that only rewrites positions and velocities keeps the
copied caller fields intact (true of all four registered d3 forces). -/
def PreservesStatic (FM : ForceModel) : Prop :=
  ∀ dims a ns, (FM.force dims a ns).map staticOf = ns.map staticOf

/-- A force pass never touches pins (true of all four registered d3
forces). -/
def PreservesPins (FM : ForceModel) : Prop :=
  ∀ dims a ns, (FM.force dims a ns).map (fun n => (n.fx, n.fy))
      = ns.map (fun n => (n.fx, n.fy))

/-- A concrete trivial force model used to instantiate theorems. -/
def FM0 : ForceModel :=
  { seedX := fun _ => 0, seedY := fun _ => 0,
    force := fun _ _ ns => ns, alphaDecay := 0, alphaMin := 0 }

/-- A concrete force model whose force pass accelerates every node, used
to exhibit position accumulation. -/
def FMbump : ForceModel :=
  { seedX := fun _ => 0, seedY := fun _ => 0,
    force := fun _ _ ns => ns.map (fun n => { n with vx := n.vx + 1 }),
    alphaDecay := 0, alphaMin := 0 }

/-! ### General lemmas about the embedded operations -/

theorem setNode_get?_self (f : SimNode → SimNode) :
    ∀ (l : List SimNode) (i : Nat) (n : SimNode),
      l.get? i = some n → (setNode l i f).get? i = some (f n) := by
  intro l
  induction l with
  | nil => intro i n h; simp [List.get?] at h
  | cons hd tl ih =>
    intro i n h
    cases i with
    | zero =>
      simp only [List.get?] at h
      injection h with h2
      subst h2
      rfl
    | succ j => exact ih j n h

theorem renderCircles_get?_pos :
    ∀ (ns : List SimNode) (dom : List String) (i : Nat),
      ((renderCircles dom ns).get? i).map (fun c => (c.cx, c.cy))
        = (ns.get? i).map (fun n => (n.x, n.y)) := by
  intro ns
  induction ns with
  | nil => intro dom i; simp [renderCircles]
  | cons hd tl ih =>
    intro dom i
    cases i with
    | zero => simp [renderCircles, List.get?]
    | succ j => simp only [renderCircles, List.get?]; exact ih _ j

/-! ### C6 — empty snapshot initializes idle -/

/-- C6: for every snapshot with zero nodes, the effect guard returns
early: no simulation is started, nothing is drawn for the snapshot, and
no failure is raised. -/
theorem empty_graph_idles (FM : ForceModel) (data : KnowledgeGraphData)
    (dims : Dimensions) (h : data.nodes = []) :
    runGraphEffect FM data dims = .idle
  ∧ outcomeScene (runGraphEffect FM data dims) = none
  ∧ (∀ msg, runGraphEffect FM data dims ≠ .failed msg)
  ∧ (∀ s, runGraphEffect FM data dims ≠ .started s) := by
  have h0 : runGraphEffect FM data dims = .idle := by
    simp [runGraphEffect, h]
  refine ⟨h0, ?_, ?_, ?_⟩
  · rw [h0]; rfl
  · intro msg hc; rw [h0] at hc; exact EffectOutcome.noConfusion hc
  · intro s hc; rw [h0] at hc; exact EffectOutcome.noConfusion hc

theorem empty_graph_idles_witness :
    runGraphEffect FM0 { nodes := [], links := [] } { width := 800, height := 600 } = .idle
  ∧ outcomeScene (runGraphEffect FM0 { nodes := [], links := [] }
      { width := 800, height := 600 }) = none
  ∧ (∀ msg, runGraphEffect FM0 { nodes := [], links := [] }
      { width := 800, height := 600 } ≠ .failed msg)
  ∧ (∀ s, runGraphEffect FM0 { nodes := [], links := [] }
      { width := 800, height := 600 } ≠ .started s) :=
  empty_graph_idles FM0 { nodes := [], links := [] } { width := 800, height := 600 } rfl

/-! ### C8 — teardown stops all further work -/

/-- C8: after `simulation.stop()` (the effect cleanup run on snapshot
replacement or unmount), any number of further animation frames leaves
the simulation — in particular every node position — untouched. -/
theorem teardown_stops_work (FM : ForceModel) (s : Simulation) (n : Nat) :
    (onFrame FM)^[n] (simStop s) = simStop s
  ∧ ((onFrame FM)^[n] (simStop s)).nodes = s.nodes := by
  have key : (onFrame FM)^[n] (simStop s) = simStop s := by
    induction n with
    | zero => rfl
    | succ k ih =>
      rw [Function.iterate_succ_apply]
      have h1 : onFrame FM (simStop s) = simStop s := by
        simp [onFrame, simStop]
      rw [h1, ih]
  exact ⟨key, by rw [key]; rfl⟩

/-! ### C4 — tick renderer copies positions exactly -/

/-- C4: at every simulation state reached when the tick handler fires,
each rendered line's endpoints equal the resolved source and target
nodes' current coordinates exactly, each link label sits at the midpoint
of those endpoints, each circle sits at its node's position, and each
node label sits at its node's position with the fixed offset
`dx = 12`, `dy = ".35em"`. -/
theorem tick_render_consistency (FM : ForceModel) (s : Simulation) :
    (∀ i, (renderScene s).links.get? i = (s.links.get? i).map (renderLink s))
  ∧ (∀ l, (renderLink s l).x1 = (nodeAt s l.source).x
      ∧ (renderLink s l).y1 = (nodeAt s l.source).y
      ∧ (renderLink s l).x2 = (nodeAt s l.target).x
      ∧ (renderLink s l).y2 = (nodeAt s l.target).y)
  ∧ (∀ i, (renderScene s).linkLabels.get? i
        = (s.links.get? i).map (renderLinkLabel s))
  ∧ (∀ l, (renderLinkLabel s l).x
        = ((nodeAt s l.source).x + (nodeAt s l.target).x) / 2
      ∧ (renderLinkLabel s l).y
        = ((nodeAt s l.source).y + (nodeAt s l.target).y) / 2)
  ∧ (∀ i, ((renderScene s).circles.get? i).map (fun c => (c.cx, c.cy))
        = (s.nodes.get? i).map (fun n => (n.x, n.y)))
  ∧ (∀ i, (renderScene s).labels.get? i = (s.nodes.get? i).map renderNodeLabel)
  ∧ (∀ n, (renderNodeLabel n).x = n.x ∧ (renderNodeLabel n).y = n.y
      ∧ (renderNodeLabel n).dx = 12 ∧ (renderNodeLabel n).dy = ".35em")
  ∧ (∀ i, (renderScene (tick FM s)).links.get? i
        = ((tick FM s).links.get? i).map (renderLink (tick FM s))) := by
  refine ⟨?_, ?_, ?_, ?_, ?_, ?_, ?_, ?_⟩
  · intro i; simp [renderScene, List.get?_map]
  · intro l; exact ⟨rfl, rfl, rfl, rfl⟩
  · intro i; simp [renderScene, List.get?_map]
  · intro l; exact ⟨rfl, rfl⟩
  · intro i; exact renderCircles_get?_pos s.nodes [] i
  · intro i; simp [renderScene, List.get?_map]
  · intro n; exact ⟨rfl, rfl, rfl, rfl⟩
  · intro i; simp [renderScene, List.get?_map]

/-! ### C5 — drag handlers and pin fidelity -/

theorem integrate_pinned (m : SimNode) (px py : ℚ)
    (hx : m.fx = some px) (hy : m.fy = some py) :
    (integrate m).x = px ∧ (integrate m).y = py := by
  simp [integrate, hx, hy]

/-- C5: pointer-down with no other active gesture pins the node at its
current position, raises the alpha target to 0.3 and restarts the
stepper; pointer-move while pinned moves the pin to the pointer;
pointer-up with no other active gesture clears the pin and drops the
alpha target back to 0; and a tick of a simulation whose node is pinned
at `(px, py)` reports that node's position as exactly `(px, py)`. -/
theorem drag_pin_semantics (FM : ForceModel) (s : Simulation) (i : Nat)
    (n : SimNode) (px py : ℚ)
    (hF : PreservesPins FM)
    (hn : s.nodes.get? i = some n)
    (hfx : n.fx = some px) (hfy : n.fy = some py) :
    (dragstarted false s i).alphaTarget = 3 / 10
  ∧ (dragstarted false s i).running = true
  ∧ (dragstarted false s i).nodes.get? i
      = some { n with fx := some n.x, fy := some n.y }
  ∧ (∀ qx qy, (dragged s i qx qy).nodes.get? i
      = some { n with fx := some qx, fy := some qy })
  ∧ (dragended false s i).alphaTarget = 0
  ∧ (dragended false s i).nodes.get? i = some { n with fx := none, fy := none }
  ∧ ((tick FM s).nodes.get? i).map (fun m => (m.x, m.y)) = some (px, py) := by
  refine ⟨rfl, rfl, ?_, ?_, rfl, ?_, ?_⟩
  · exact setNode_get?_self _ s.nodes i n hn
  · intro qx qy; exact setNode_get?_self _ s.nodes i n hn
  · exact setNode_get?_self _ s.nodes i n hn
  · have hpins := hF s.dims (s.alpha + (s.alphaTarget - s.alpha) * FM.alphaDecay) s.nodes
    have hget : ((FM.force s.dims (s.alpha + (s.alphaTarget - s.alpha) * FM.alphaDecay)
        s.nodes).get? i).map (fun m => (m.fx, m.fy))
        = (s.nodes.get? i).map (fun m => (m.fx, m.fy)) := by
      rw [← List.get?_map, ← List.get?_map, hpins]
    rw [hn] at hget
    cases hm : (FM.force s.dims (s.alpha + (s.alphaTarget - s.alpha) * FM.alphaDecay)
        s.nodes).get? i with
    | none => rw [hm] at hget; simp at hget
    | some m =>
      rw [hm] at hget
      simp only [Option.map_some'] at hget
      injection hget with hget2
      have hmx : m.fx = some px := by
        have := congrArg Prod.fst hget2
        simp at this
        rw [this, hfx]
      have hmy : m.fy = some py := by
        have := congrArg Prod.snd hget2
        simp at this
        rw [this, hfy]
      have hint := integrate_pinned m px py hmx hmy
      show (((FM.force s.dims (s.alpha + (s.alphaTarget - s.alpha) * FM.alphaDecay)
          s.nodes).map integrate).get? i).map (fun m => (m.x, m.y)) = some (px, py)
      rw [List.get?_map, hm]
      simp [hint.1, hint.2]

def simPinned : Simulation :=
  { nodes := [{ id := "A", group := "G", val := none,
                x := 1, y := 2, vx := 0, vy := 0, fx := some 7, fy := some 9 }],
    links := [], dims := { width := 800, height := 600 },
    alpha := 1, alphaTarget := 0, running := true }

theorem drag_pin_semantics_witness :
    (dragstarted false simPinned 0).alphaTarget = 3 / 10
  ∧ (dragstarted false simPinned 0).running = true
  ∧ (dragstarted false simPinned 0).nodes.get? 0
      = some { id := "A", group := "G", val := none,
               x := 1, y := 2, vx := 0, vy := 0, fx := some 1, fy := some 2 }
  ∧ (∀ qx qy, (dragged simPinned 0 qx qy).nodes.get? 0
      = some { id := "A", group := "G", val := none,
               x := 1, y := 2, vx := 0, vy := 0, fx := some qx, fy := some qy })
  ∧ (dragended false simPinned 0).alphaTarget = 0
  ∧ (dragended false simPinned 0).nodes.get? 0
      = some { id := "A", group := "G", val := none,
               x := 1, y := 2, vx := 0, vy := 0, fx := none, fy := none }
  ∧ ((tick FM0 simPinned).nodes.get? 0).map (fun m => (m.x, m.y)) = some (7, 9) :=
  drag_pin_semantics FM0 simPinned 0
    { id := "A", group := "G", val := none,
      x := 1, y := 2, vx := 0, vy := 0, fx := some 7, fy := some 9 }
    7 9 (fun _ _ _ => rfl) rfl rfl rfl

/-! ### C2 — links to missing nodes abort setup -/

theorem lastIdxOf_lt_length (ident : String) :
    ∀ (ns : List SimNode) (j : Nat), lastIdxOf ident ns = some j → j < ns.length := by
  intro ns
  induction ns with
  | nil => intro j h; simp [lastIdxOf] at h
  | cons n rest ih =>
    intro j h
    simp only [lastIdxOf] at h
    cases hrec : lastIdxOf ident rest with
    | some j2 =>
      rw [hrec] at h
      injection h with h2
      subst h2
      exact Nat.succ_lt_succ (ih j2 hrec)
    | none =>
      rw [hrec] at h
      by_cases hid : n.id = ident
      · rw [if_pos hid] at h
        injection h with h2
        subst h2
        exact Nat.succ_pos _
      · rw [if_neg hid] at h
        exact Option.noConfusion h

theorem lastIdxOf_eq_none (ident : String) :
    ∀ ns : List SimNode, (∀ n ∈ ns, n.id ≠ ident) → lastIdxOf ident ns = none := by
  intro ns
  induction ns with
  | nil => intro _; rfl
  | cons n rest ih =>
    intro h
    have hrest := ih (fun m hm => h m (List.mem_cons_of_mem n hm))
    have hn := h n (List.mem_cons_self n rest)
    simp [lastIdxOf, hrest, hn]

theorem mem_mkSimNodes_id (FM : ForceModel) :
    ∀ (l : List GraphNode) (k : Nat) (n : SimNode),
      n ∈ mkSimNodes FM k l → ∃ d ∈ l, n.id = d.id := by
  intro l
  induction l with
  | nil => intro k n h; simp [mkSimNodes] at h
  | cons d rest ih =>
    intro k n h
    simp only [mkSimNodes, List.mem_cons] at h
    cases h with
    | inl h => exact ⟨d, List.mem_cons_self d rest, by rw [h]; rfl⟩
    | inr h =>
      obtain ⟨d2, hd2, hid⟩ := ih (k + 1) n h
      exact ⟨d2, List.mem_cons_of_mem d hd2, hid⟩

theorem resolveLink_err_of_missing (ns : List SimNode) (l : GraphLink)
    (h : (∀ n ∈ ns, n.id ≠ l.source) ∨ (∀ n ∈ ns, n.id ≠ l.target)) :
    ∀ r, resolveLink ns l ≠ .ok r := by
  intro r hok
  cases h with
  | inl hsrc =>
    have := lastIdxOf_eq_none l.source ns hsrc
    simp [resolveLink, this] at hok
  | inr htgt =>
    have := lastIdxOf_eq_none l.target ns htgt
    cases hs : lastIdxOf l.source ns with
    | none => simp [resolveLink, hs] at hok
    | some j => simp [resolveLink, hs, this] at hok

theorem resolveLinks_err_of_bad (ns : List SimNode) :
    ∀ (links : List GraphLink) (l : GraphLink), l ∈ links →
      (∀ r, resolveLink ns l ≠ .ok r) →
      ∀ rs, resolveLinks ns links ≠ .ok rs := by
  intro links
  induction links with
  | nil => intro l h; simp at h
  | cons hd tl ih =>
    intro l hmem hbad rs hok
    simp only [resolveLinks] at hok
    cases hhd : resolveLink ns hd with
    | error e => rw [hhd] at hok; exact Except.noConfusion hok
    | ok r =>
      rw [hhd] at hok
      rcases List.mem_cons.mp hmem with heq | htl
      · exact hbad r (heq ▸ hhd)
      · cases htlres : resolveLinks ns tl with
        | error e => rw [htlres] at hok; exact Except.noConfusion hok
        | ok rs2 => exact ih l htl hbad rs2 htlres

theorem resolveLinks_ok_valid (ns : List SimNode) :
    ∀ (links : List GraphLink) (rs : List ResolvedLink),
      resolveLinks ns links = .ok rs →
      ∀ rl ∈ rs, rl.source < ns.length ∧ rl.target < ns.length := by
  intro links
  induction links with
  | nil =>
    intro rs h rl hrl
    simp only [resolveLinks] at h
    injection h with h2
    subst h2
    simp at hrl
  | cons hd tl ih =>
    intro rs h rl hrl
    simp only [resolveLinks] at h
    cases hhd : resolveLink ns hd with
    | error e => rw [hhd] at h; exact Except.noConfusion h
    | ok r =>
      rw [hhd] at h
      cases htl : resolveLinks ns tl with
      | error e => rw [htl] at h; exact Except.noConfusion h
      | ok rs2 =>
        rw [htl] at h
        injection h with h2
        subst h2
        rcases List.mem_cons.mp hrl with heq | hmem
        · subst heq
          simp only [resolveLink] at hhd
          cases hs : lastIdxOf hd.source ns with
          | none => rw [hs] at hhd; exact Except.noConfusion hhd
          | some js =>
            rw [hs] at hhd
            cases ht : lastIdxOf hd.target ns with
            | none => rw [ht] at hhd; exact Except.noConfusion hhd
            | some jt =>
              rw [ht] at hhd
              injection hhd with h3
              subst h3
              exact ⟨lastIdxOf_lt_length _ ns js hs, lastIdxOf_lt_length _ ns jt ht⟩
        · exact ih rs2 htl rl hmem

theorem runGraphEffect_started (FM : ForceModel) (data : KnowledgeGraphData)
    (dims : Dimensions) (s : Simulation)
    (h : runGraphEffect FM data dims = .started s) :
    s.nodes = mkSimNodes FM 0 data.nodes
  ∧ resolveLinks s.nodes data.links = .ok s.links
  ∧ s.dims = dims ∧ s.alpha = 1 ∧ s.alphaTarget = 0 ∧ s.running = true := by
  by_cases h0 : data.nodes.length = 0
  · simp [runGraphEffect, h0] at h
  · simp only [runGraphEffect, if_neg h0] at h
    cases hres : resolveLinks (mkSimNodes FM 0 data.nodes) data.links with
    | error e => rw [hres] at h; exact EffectOutcome.noConfusion h
    | ok rl =>
      rw [hres] at h
      injection h with h2
      subst h2
      exact ⟨rfl, hres, rfl, rfl, rfl, rfl⟩

/-- C2: a snapshot containing a link whose source or target id matches no
node id never starts a simulation (setup throws or the empty guard fires
first), and in every started simulation each resolved link's endpoint
indices are in bounds, so the stepping loop never dereferences a missing
node. -/
theorem dangling_link_rejected (FM : ForceModel) (data : KnowledgeGraphData)
    (dims : Dimensions) :
    (∀ l ∈ data.links,
       ((∀ nd ∈ data.nodes, nd.id ≠ l.source) ∨ (∀ nd ∈ data.nodes, nd.id ≠ l.target)) →
       ∀ s, runGraphEffect FM data dims ≠ .started s)
  ∧ (∀ s, runGraphEffect FM data dims = .started s →
       ∀ rl ∈ s.links, rl.source < s.nodes.length ∧ rl.target < s.nodes.length) := by
  constructor
  · intro l hmem hbad s hstart
    obtain ⟨hnodes, hres, -⟩ := runGraphEffect_started FM data dims s hstart
    have hlift : (∀ n ∈ s.nodes, n.id ≠ l.source) ∨ (∀ n ∈ s.nodes, n.id ≠ l.target) := by
      cases hbad with
      | inl hsrc =>
        left
        intro n hn
        obtain ⟨d, hd, hid⟩ := mem_mkSimNodes_id FM data.nodes 0 n (hnodes ▸ hn)
        rw [hid]
        exact hsrc d hd
      | inr htgt =>
        right
        intro n hn
        obtain ⟨d, hd, hid⟩ := mem_mkSimNodes_id FM data.nodes 0 n (hnodes ▸ hn)
        rw [hid]
        exact htgt d hd
    exact resolveLinks_err_of_bad s.nodes data.links l hmem
      (resolveLink_err_of_missing s.nodes l hlift) s.links hres
  · intro s hstart rl hrl
    obtain ⟨-, hres, -⟩ := runGraphEffect_started FM data dims s hstart
    exact resolveLinks_ok_valid s.nodes data.links s.links hres rl hrl

def dataDangling : KnowledgeGraphData :=
  { nodes := [{ id := "A", group := "G", val := none }],
    links := [{ source := "A", target := "Nonexistent", relationship := "r" }] }

theorem dangling_link_rejected_witness :
    runGraphEffect FM0 dataDangling { width := 800, height := 600 }
      ≠ .started simPinned :=
  (dangling_link_rejected FM0 dataDangling { width := 800, height := 600 }).1
    { source := "A", target := "Nonexistent", relationship := "r" }
    (by decide)
    (Or.inr (by decide)) simPinned

/-! ### C7 — engine operates on copies; caller fields never altered -/

theorem staticOf_integrate (n : SimNode) : staticOf (integrate n) = staticOf n := by
  cases hx : n.fx <;> cases hy : n.fy <;> simp [integrate, hx, hy, staticOf]

theorem map_staticOf_map_integrate (l : List SimNode) :
    (l.map integrate).map staticOf = l.map staticOf := by
  rw [List.map_map]
  exact List.map_congr_left (fun n _ => staticOf_integrate n)

theorem map_staticOf_setNode (f : SimNode → SimNode)
    (hf : ∀ n, staticOf (f n) = staticOf n) :
    ∀ (l : List SimNode) (i : Nat),
      (setNode l i f).map staticOf = l.map staticOf := by
  intro l
  induction l with
  | nil => intro i; rfl
  | cons hd tl ih =>
    intro i
    cases i with
    | zero => simp [setNode, hf hd]
    | succ j => simp [setNode, ih j]

theorem onFrame_cases (FM : ForceModel) (s : Simulation) :
    onFrame FM s = s ∨ onFrame FM s = tick FM s
  ∨ onFrame FM s = simStop (tick FM s) := by
  unfold onFrame
  by_cases hr : s.running
  · rw [if_pos hr]
    by_cases ha : (tick FM s).alpha < FM.alphaMin
    · right; right; rw [if_pos ha]
    · right; left; rw [if_neg ha]
  · left; rw [if_neg hr]

theorem tick_preserves_static (FM : ForceModel) (hF : PreservesStatic FM)
    (s : Simulation) :
    (tick FM s).nodes.map staticOf = s.nodes.map staticOf := by
  show ((FM.force s.dims _ s.nodes).map integrate).map staticOf = _
  rw [map_staticOf_map_integrate]
  exact hF s.dims _ s.nodes

theorem applyOp_preserves_static (FM : ForceModel) (hF : PreservesStatic FM)
    (s : Simulation) (op : EngineOp) :
    (applyOp FM s op).nodes.map staticOf = s.nodes.map staticOf
  ∧ (applyOp FM s op).links = s.links := by
  cases op with
  | frame =>
    show (onFrame FM s).nodes.map staticOf = s.nodes.map staticOf
       ∧ (onFrame FM s).links = s.links
    rcases onFrame_cases FM s with h | h | h <;> rw [h]
    · exact ⟨rfl, rfl⟩
    · exact ⟨tick_preserves_static FM hF s, rfl⟩
    · exact ⟨tick_preserves_static FM hF s, rfl⟩
  | dstart a i =>
    cases a with
    | false =>
      exact ⟨map_staticOf_setNode
        (fun n => { n with fx := some n.x, fy := some n.y }) (fun n => rfl) s.nodes i, rfl⟩
    | true =>
      exact ⟨map_staticOf_setNode
        (fun n => { n with fx := some n.x, fy := some n.y }) (fun n => rfl) s.nodes i, rfl⟩
  | dmove i px py =>
    exact ⟨map_staticOf_setNode
      (fun n => { n with fx := some px, fy := some py }) (fun n => rfl) s.nodes i, rfl⟩
  | dend a i =>
    cases a with
    | false =>
      exact ⟨map_staticOf_setNode
        (fun n => { n with fx := none, fy := none }) (fun n => rfl) s.nodes i, rfl⟩
    | true =>
      exact ⟨map_staticOf_setNode
        (fun n => { n with fx := none, fy := none }) (fun n => rfl) s.nodes i, rfl⟩

theorem applyOps_preserves_static (FM : ForceModel) (hF : PreservesStatic FM) :
    ∀ (ops : List EngineOp) (s : Simulation),
      (applyOps FM s ops).nodes.map staticOf = s.nodes.map staticOf
    ∧ (applyOps FM s ops).links = s.links := by
  intro ops
  induction ops with
  | nil => intro s; exact ⟨rfl, rfl⟩
  | cons op rest ih =>
    intro s
    have h1 := applyOp_preserves_static FM hF s op
    have h2 := ih (applyOp FM s op)
    exact ⟨h2.1.trans h1.1, h2.2.trans h1.2⟩

theorem mkSimNodes_staticOf (FM : ForceModel) :
    ∀ (l : List GraphNode) (k : Nat), (mkSimNodes FM k l).map staticOf = l := by
  intro l
  induction l with
  | nil => intro k; rfl
  | cons d rest ih =>
    intro k
    simp only [mkSimNodes, List.map_cons, ih (k + 1)]
    rfl

/-- C7: the effect copies the snapshot into engine-owned records whose
caller-visible fields (`id`, `group`, `val`; link `relationship` and
resolved endpoints) coincide with the input, and no sequence of engine
stimuli (frames, drags) ever alters those copied fields — the engine
mutates only positions, velocities and pins of its own records, so the
caller's node and link objects are untouched for the simulation's whole
lifetime. -/
theorem engine_never_mutates_caller_fields (FM : ForceModel)
    (data : KnowledgeGraphData) (dims : Dimensions) (s : Simulation)
    (hF : PreservesStatic FM)
    (hs : runGraphEffect FM data dims = .started s) :
    s.nodes.map staticOf = data.nodes
  ∧ ∀ ops : List EngineOp,
      (applyOps FM s ops).nodes.map staticOf = data.nodes
    ∧ (applyOps FM s ops).links = s.links := by
  obtain ⟨hnodes, -, -⟩ := runGraphEffect_started FM data dims s hs
  have hcopy : s.nodes.map staticOf = data.nodes := by
    rw [hnodes]; exact mkSimNodes_staticOf FM data.nodes 0
  refine ⟨hcopy, fun ops => ?_⟩
  have h := applyOps_preserves_static FM hF ops s
  exact ⟨h.1.trans hcopy, h.2⟩

def dataOne : KnowledgeGraphData :=
  { nodes := [{ id := "A", group := "G", val := none }], links := [] }

def simOne : Simulation :=
  { nodes := [{ id := "A", group := "G", val := none,
                x := 0, y := 0, vx := 0, vy := 0, fx := none, fy := none }],
    links := [], dims := { width := 800, height := 600 },
    alpha := 1, alphaTarget := 0, running := true }

theorem engine_never_mutates_caller_fields_witness :
    simOne.nodes.map staticOf = dataOne.nodes
  ∧ ∀ ops : List EngineOp,
      (applyOps FM0 simOne ops).nodes.map staticOf = dataOne.nodes
    ∧ (applyOps FM0 simOne ops).links = simOne.links :=
  engine_never_mutates_caller_fields FM0 dataOne { width := 800, height := 600 }
    simOne (fun _ _ _ => rfl) (by decide)

/-! ### C1 — resize re-initializes; accumulated positions are discarded -/

def stBump : ComponentState :=
  onFrameEvent FMbump (mount FMbump dataOne { width := 800, height := 600 })

/-- C1 counterexample: with the graph snapshot unchanged, a resize event
replaces the accumulated node position 3/5 by the freshly seeded initial
position 0 — node positions and velocities are not preserved across a
viewport-only change, refuting the claim. -/
theorem resize_discards_positions_cex :
    firstNodeX stBump = some (3 / 5)
  ∧ (onResizeEvent FMbump stBump 400 300).data = stBump.data
  ∧ firstNodeX (onResizeEvent FMbump stBump 400 300) = some 0
  ∧ (3 / 5 : ℚ) ≠ 0 := by
  refine ⟨?_, rfl, ?_, by norm_num⟩ <;>
    norm_num [stBump, mount, onFrameEvent, onResizeEvent, runGraphEffect,
      dataOne, FMbump, mkSimNodes, mkSimNode, resolveLinks, resolveLink,
      firstNodeX, onFrame, tick, simStop, integrate, velocityDecay, List.get?]

theorem mkSimNodes_get? (FM : ForceModel) :
    ∀ (l : List GraphNode) (k i : Nat) (n : SimNode),
      (mkSimNodes FM k l).get? i = some n →
      n.x = FM.seedX (k + i) ∧ n.y = FM.seedY (k + i)
    ∧ n.vx = 0 ∧ n.vy = 0 ∧ n.fx = none ∧ n.fy = none := by
  intro l
  induction l with
  | nil => intro k i n h; simp [mkSimNodes] at h
  | cons d rest ih =>
    intro k i n h
    cases i with
    | zero =>
      simp only [mkSimNodes, List.get?] at h
      injection h with h2
      subst h2
      exact ⟨rfl, rfl, rfl, rfl, rfl, rfl⟩
    | succ j =>
      have h2 := ih (k + 1) j n h
      have harith : k + 1 + j = k + (j + 1) := by omega
      rw [harith] at h2
      exact h2

/-- C1 amended: when only the viewport dimensions change, the effect's
dependency list `[data, dimensions]` makes the component stop the old
simulation and re-run the whole effect: the resize result is exactly a
full re-initialization on the unchanged snapshot at the new dimensions,
and every node of a simulation started that way carries the freshly
seeded initial position with zero velocity and no pin — accumulated
positions and velocities are discarded, not preserved. -/
theorem resize_is_full_reinitialization (FM : ForceModel)
    (st : ComponentState) (w h : Int) :
    onResizeEvent FM st w h
      = onDataEvent FM { st with dims := { width := w, height := h } } st.data
  ∧ (∀ s, (onResizeEvent FM st w h).outcome = .started s →
      ∀ i n, s.nodes.get? i = some n →
        n.x = FM.seedX i ∧ n.y = FM.seedY i
      ∧ n.vx = 0 ∧ n.vy = 0 ∧ n.fx = none ∧ n.fy = none) := by
  constructor
  · rfl
  · intro s hs i n hn
    have hstart : runGraphEffect FM st.data { width := w, height := h } = .started s := hs
    obtain ⟨hnodes, -⟩ := runGraphEffect_started FM st.data
      { width := w, height := h } s hstart
    rw [hnodes] at hn
    have h2 := mkSimNodes_get? FM st.data.nodes 0 i n hn
    rw [Nat.zero_add] at h2
    exact h2

theorem resize_is_full_reinitialization_witness :
    (onResizeEvent FM0 (mount FM0 dataOne { width := 800, height := 600 }) 400 300
      = onDataEvent FM0 { mount FM0 dataOne { width := 800, height := 600 } with
          dims := { width := 400, height := 300 } } dataOne)
  ∧ (simOne.nodes.getD 0 defaultSimNode).x = FM0.seedX 0 := by
  have h := resize_is_full_reinitialization FM0
    (mount FM0 dataOne { width := 800, height := 600 }) 400 300
  refine ⟨h.1, ?_⟩
  have h2 := h.2 { simOne with dims := { width := 400, height := 300 } }
    (by decide) 0 (simOne.nodes.getD 0 defaultSimNode) (by decide)
  exact h2.1

/-! ### C3 — the group→color mapping is stable for the session -/

theorem domIdx_append_of_mem (g : String) :
    ∀ (l ext : List String), g ∈ l → domIdx g (l ++ ext) = domIdx g l := by
  intro l ext h
  induction l with
  | nil => simp at h
  | cons x rest ih =>
    by_cases hx : x = g
    · simp [domIdx, hx]
    · have hrest : g ∈ rest := by
        rcases List.mem_cons.mp h with heq | hm
        · exact absurd heq.symm hx
        · exact hm
      simp [domIdx, hx, ih hrest]

theorem feedGroups_extends :
    ∀ (gs dom : List String), ∃ ext, feedGroups dom gs = dom ++ ext := by
  intro gs
  induction gs with
  | nil => intro dom; exact ⟨[], by simp [feedGroups]⟩
  | cons g rest ih =>
    intro dom
    by_cases hg : g ∈ dom
    · obtain ⟨ext, hext⟩ := ih dom
      exact ⟨ext, by simp [feedGroups, scaleCall, hg, hext]⟩
    · obtain ⟨ext, hext⟩ := ih (dom ++ [g])
      refine ⟨[g] ++ ext, ?_⟩
      simp only [feedGroups, scaleCall, if_neg hg]
      rw [hext, List.append_assoc]

theorem mem_feedGroups (g : String) :
    ∀ (gs dom : List String), g ∈ gs ∨ g ∈ dom → g ∈ feedGroups dom gs := by
  intro gs
  induction gs with
  | nil =>
    intro dom h
    rcases h with h | h
    · simp at h
    · simpa [feedGroups] using h
  | cons x rest ih =>
    intro dom h
    simp only [feedGroups]
    apply ih
    rcases h with h | h
    · rcases List.mem_cons.mp h with heq | hm
      · right
        subst heq
        by_cases hg : g ∈ dom
        · simp [scaleCall, hg]
        · simp [scaleCall, hg]
      · left; exact hm
    · right
      by_cases hx : x ∈ dom
      · simpa [scaleCall, hx] using h
      · simp only [scaleCall, if_neg hx]
        exact List.mem_append_left _ h

theorem scaleCall_of_mem (dom : List String) (g : String) (h : g ∈ dom) :
    scaleCall dom g
      = (dom, schemeCategory10.getD (domIdx g dom % schemeCategory10.length) "") := by
  simp [scaleCall, h]

/-- C3: the session color scale is stable — (i) calling the scale again
with a group it has already assigned returns the same color and leaves
the domain unchanged; (ii) the color assigned to a group does not change
as further groups are encountered later in the session; (iii) replaying
any node list with the same sequence of `group` values (a
re-initialization on a replaced snapshot) reproduces exactly the same
fill colors. -/
theorem stable_color_mapping :
    (∀ dom g, scaleCall (scaleCall dom g).1 g = scaleCall dom g)
  ∧ (∀ gs more g, g ∈ gs → sessionColor (gs ++ more) g = sessionColor gs g)
  ∧ (∀ dom (ns1 ns2 : List SimNode), ns1.map SimNode.group = ns2.map SimNode.group →
      (renderCircles dom ns1).map RenderedCircle.fill
        = (renderCircles dom ns2).map RenderedCircle.fill) := by
  refine ⟨?_, ?_, ?_⟩
  · intro dom g
    by_cases hg : g ∈ dom
    · simp [scaleCall, hg]
    · have hg2 : g ∈ dom ++ [g] := List.mem_append_right _ (List.mem_singleton.mpr rfl)
      simp [scaleCall, hg, hg2]
  · intro gs more g hmem
    have hsplit : feedGroups [] (gs ++ more) = feedGroups (feedGroups [] gs) more := by
      have : ∀ (a b dom : List String),
          feedGroups dom (a ++ b) = feedGroups (feedGroups dom a) b := by
        intro a
        induction a with
        | nil => intro b dom; rfl
        | cons x rest ih => intro b dom; exact ih b ((scaleCall dom x).1)
      exact this gs more []
    have hginbase : g ∈ feedGroups [] gs :=
      mem_feedGroups g gs [] (Or.inl hmem)
    obtain ⟨ext, hext⟩ := feedGroups_extends more (feedGroups [] gs)
    have hginext : g ∈ feedGroups (feedGroups [] gs) more := by
      rw [hext]; exact List.mem_append_left _ hginbase
    unfold sessionColor
    rw [hsplit, scaleCall_of_mem _ g hginext, scaleCall_of_mem _ g hginbase]
    rw [hext, domIdx_append_of_mem g _ ext hginbase]
  · intro dom ns1
    induction ns1 generalizing dom with
    | nil =>
      intro ns2 h
      have : ns2 = [] := by
        cases ns2 with
        | nil => rfl
        | cons a b => simp at h
      subst this
      rfl
    | cons n1 rest1 ih =>
      intro ns2 h
      cases ns2 with
      | nil => simp at h
      | cons n2 rest2 =>
        simp only [List.map_cons, List.cons.injEq] at h
        obtain ⟨hg, hrest⟩ := h
        simp only [renderCircles, List.map_cons, hg]
        exact List.cons.injEq _ _ _ _ ▸ by
          rw [ih _ rest2 hrest]
          simp

theorem stable_color_mapping_witness :
    sessionColor (["Technology", "Concept"] ++ ["Industry"]) "Technology"
      = sessionColor ["Technology", "Concept"] "Technology"
  ∧ scaleCall (scaleCall [] "Technology").1 "Technology"
      = scaleCall [] "Technology" :=
  ⟨stable_color_mapping.2.1 ["Technology", "Concept"] ["Industry"] "Technology"
      (by decide),
   stable_color_mapping.1 [] "Technology"⟩

/-! ### C9 — the merge can drop case-colliding previous nodes -/

def prevDup : KnowledgeGraphData :=
  { nodes := [{ id := "A", group := "G", val := none },
              { id := "a", group := "H", val := none }],
    links := [] }

/-- C9 counterexample: when the previous graph holds two nodes whose ids
coincide after lowercasing, the merge's id-lowercased `Map` keeps only
the later one, so a previous node disappears from the result even when
nothing new is proposed — refuting the claim for arbitrary previous
states. -/
theorem merge_drops_node_cex :
    ({ id := "A", group := "G", val := none } : GraphNode) ∈ prevDup.nodes
  ∧ ({ id := "A", group := "G", val := none } : GraphNode)
      ∉ (updateGraph prevDup [] []).nodes := by
  constructor
  · decide
  · decide

theorem entriesHas_append (m1 m2 : NodeEntries) (k : String) :
    entriesHas (m1 ++ m2) k = (entriesHas m1 k || entriesHas m2 k) :=
  List.any_append

theorem entriesOfNodes_fresh :
    ∀ (l : List GraphNode) (m : NodeEntries),
      (∀ n ∈ l, entriesHas m (lowerCase n.id) = false) →
      (l.map (fun n => (lowerCase n.id))).Nodup →
      entriesOfNodes m l = m ++ l.map (fun n => ((lowerCase n.id), n)) := by
  intro l
  induction l with
  | nil => intro m _ _; simp [entriesOfNodes]
  | cons n rest ih =>
    intro m hfresh hnd
    have hn : entriesHas m (lowerCase n.id) = false :=
      hfresh n (List.mem_cons_self n rest)
    have hset : entriesSet m (lowerCase n.id) n = m ++ [((lowerCase n.id), n)] := by
      simp [entriesSet, hn]
    simp only [List.map_cons, List.nodup_cons] at hnd
    obtain ⟨hnotin, hndrest⟩ := hnd
    have hfresh2 : ∀ n2 ∈ rest, entriesHas (m ++ [((lowerCase n.id), n)]) (lowerCase n2.id) = false := by
      intro n2 hn2
      rw [entriesHas_append]
      have h1 : entriesHas m (lowerCase n2.id) = false :=
        hfresh n2 (List.mem_cons_of_mem n hn2)
      have h2 : entriesHas [((lowerCase n.id), n)] (lowerCase n2.id) = false := by
        have hne : (lowerCase n.id) ≠ (lowerCase n2.id) := by
          intro hc
          exact hnotin (List.mem_map.mpr ⟨n2, hn2, hc.symm⟩)
        simp [entriesHas, hne]
      rw [h1, h2]
      rfl
    simp only [entriesOfNodes, hset]
    rw [ih (m ++ [((lowerCase n.id), n)]) hfresh2 hndrest, List.append_assoc]
    rfl

theorem addNewNodes_appends :
    ∀ (nn : List GraphNode) (m : NodeEntries),
      ∃ extra, addNewNodes m nn = m ++ extra := by
  intro nn
  induction nn with
  | nil => intro m; exact ⟨[], by simp [addNewNodes]⟩
  | cons node rest ih =>
    intro m
    by_cases h : entriesHas m (lowerCase node.id) = true
    · obtain ⟨extra, hex⟩ := ih m
      exact ⟨extra, by simp [addNewNodes, h, hex]⟩
    · have hf : entriesHas m (lowerCase node.id) = false := by
        cases hb : entriesHas m (lowerCase node.id)
        · rfl
        · exact absurd hb h
      obtain ⟨extra, hex⟩ := ih (m ++ [((lowerCase node.id), { node with val := some 5 })])
      refine ⟨[((lowerCase node.id), { node with val := some 5 })] ++ extra, ?_⟩
      have hstep : addNewNodes m (node :: rest)
          = addNewNodes (entriesSet m (lowerCase node.id)
              { node with val := some 5 }) rest := by
        simp [addNewNodes, hf]
      have hset : entriesSet m (lowerCase node.id) { node with val := some 5 }
          = m ++ [((lowerCase node.id), { node with val := some 5 })] := by
        simp [entriesSet, hf]
      rw [hstep, hset, hex, List.append_assoc]

theorem addNewLinks_appends (m : NodeEntries) :
    ∀ (rest : List GraphLink) (acc : List GraphLink) (seen : List String),
      ∃ extra, (addNewLinks m rest acc seen).1 = acc ++ extra := by
  intro rest
  induction rest with
  | nil => intro acc seen; exact ⟨[], by simp [addNewLinks]⟩
  | cons l tl ih =>
    intro acc seen
    by_cases h1 : linkKey l ∈ seen
    · obtain ⟨extra, hex⟩ := ih acc seen
      exact ⟨extra, by simp [addNewLinks, h1, hex]⟩
    · by_cases h2 : (entriesHas m (lowerCase l.source) && entriesHas m (lowerCase l.target)) = true
      · obtain ⟨extra, hex⟩ := ih (acc ++ [l]) (seen ++ [linkKey l])
        refine ⟨[l] ++ extra, ?_⟩
        simp only [addNewLinks, if_neg h1, h2, if_true]
        rw [hex, List.append_assoc]
      · obtain ⟨extra, hex⟩ := ih acc seen
        refine ⟨extra, ?_⟩
        simp only [addNewLinks, if_neg h1]
        rw [if_neg h2]
        exact hex

/-- C9 amended: provided the previous graph's node ids are pairwise
distinct after lowercasing (which holds for every graph the app itself
builds), `updateGraph` only ever grows the graph: the previous nodes and
links reappear unchanged, in order, as a prefix of the result. Without
that proviso the claim fails (see the counterexample): a previous node
whose id collides case-insensitively with a later one is dropped. -/
theorem merge_only_grows (prev : KnowledgeGraphData)
    (newNodes : List GraphNode) (newLinks : List GraphLink)
    (hnd : (prev.nodes.map (fun n => (lowerCase n.id))).Nodup) :
    ∃ extraNodes extraLinks,
      (updateGraph prev newNodes newLinks).nodes = prev.nodes ++ extraNodes
    ∧ (updateGraph prev newNodes newLinks).links = prev.links ++ extraLinks := by
  have hm0 : entriesOfNodes [] prev.nodes
      = prev.nodes.map (fun n => ((lowerCase n.id), n)) := by
    have := entriesOfNodes_fresh prev.nodes [] (fun n _ => rfl) hnd
    simpa using this
  obtain ⟨extraN, hextraN⟩ :=
    addNewNodes_appends newNodes (entriesOfNodes [] prev.nodes)
  obtain ⟨extraL, hextraL⟩ :=
    addNewLinks_appends (addNewNodes (entriesOfNodes [] prev.nodes) newNodes)
      newLinks prev.links (prev.links.map linkKey)
  refine ⟨extraN.map (fun p => p.2), extraL, ?_, hextraL⟩
  show (addNewNodes (entriesOfNodes [] prev.nodes) newNodes).map (fun p => p.2)
      = prev.nodes ++ extraN.map (fun p => p.2)
  rw [hextraN, hm0, List.map_append, List.map_map]
  congr 1
  exact List.map_id prev.nodes

theorem merge_only_grows_witness :
    ∃ extraNodes extraLinks,
      (updateGraph dataOne
        [{ id := "B", group := "G", val := none }]
        [{ source := "A", target := "B", relationship := "r" }]).nodes
        = dataOne.nodes ++ extraNodes
    ∧ (updateGraph dataOne
        [{ id := "B", group := "G", val := none }]
        [{ source := "A", target := "B", relationship := "r" }]).links
        = dataOne.links ++ extraLinks :=
  merge_only_grows dataOne
    [{ id := "B", group := "G", val := none }]
    [{ source := "A", target := "B", relationship := "r" }]
    (by decide)

/-! ### C10 — link admission: dedup against existing triples and
case-insensitive endpoint matching -/

theorem entriesHas_iff (m : NodeEntries) (k : String) :
    entriesHas m k = true ↔ ∃ p ∈ m, p.1 = k := by
  simp [entriesHas, List.any_eq_true, beq_iff_eq]

/-- Every map entry is keyed by the lowercased id of its stored node. -/
def WFEntries (m : NodeEntries) : Prop :=
  ∀ p ∈ m, lowerCase p.2.id = p.1

theorem wf_entriesSet (m : NodeEntries) (k : String) (v : GraphNode)
    (hm : WFEntries m) (hv : lowerCase v.id = k) :
    WFEntries (entriesSet m k v) := by
  unfold entriesSet
  split
  · intro p hp
    obtain ⟨q, hq, heq⟩ := List.mem_map.mp hp
    by_cases hqk : (q.1 == k) = true
    · rw [if_pos hqk] at heq
      subst heq
      exact hv
    · rw [if_neg hqk] at heq
      subst heq
      exact hm q hq
  · intro p hp
    rcases List.mem_append.mp hp with h | h
    · exact hm p h
    · have : p = (k, v) := List.mem_singleton.mp h
      subst this
      exact hv

theorem wf_entriesOfNodes :
    ∀ (l : List GraphNode) (m : NodeEntries),
      WFEntries m → WFEntries (entriesOfNodes m l) := by
  intro l
  induction l with
  | nil => intro m hm; exact hm
  | cons n rest ih =>
    intro m hm
    exact ih _ (wf_entriesSet m (lowerCase n.id) n hm rfl)

theorem wf_addNewNodes :
    ∀ (nn : List GraphNode) (m : NodeEntries),
      WFEntries m → WFEntries (addNewNodes m nn) := by
  intro nn
  induction nn with
  | nil => intro m hm; exact hm
  | cons node rest ih =>
    intro m hm
    unfold addNewNodes
    split
    · exact ih m hm
    · exact ih _ (wf_entriesSet m (lowerCase node.id) { node with val := some 5 } hm rfl)

theorem addNewLinks_adds_ok (m : NodeEntries) (seen0 : List String) :
    ∀ (rest acc : List GraphLink) (seen : List String),
      (∀ k ∈ seen0, k ∈ seen) →
      ∀ l ∈ (addNewLinks m rest acc seen).1,
        l ∈ acc
      ∨ (linkKey l ∉ seen0
         ∧ entriesHas m (lowerCase l.source) = true
         ∧ entriesHas m (lowerCase l.target) = true) := by
  intro rest
  induction rest with
  | nil => intro acc seen _ l hl; left; simpa [addNewLinks] using hl
  | cons hd tl ih =>
    intro acc seen hseen l hl
    by_cases h1 : linkKey hd ∈ seen
    · have heq : addNewLinks m (hd :: tl) acc seen = addNewLinks m tl acc seen := by
        simp [addNewLinks, h1]
      rw [heq] at hl
      exact ih acc seen hseen l hl
    · by_cases h2 : (entriesHas m (lowerCase hd.source)
          && entriesHas m (lowerCase hd.target)) = true
      · have heq : addNewLinks m (hd :: tl) acc seen
            = addNewLinks m tl (acc ++ [hd]) (seen ++ [linkKey hd]) := by
          simp [addNewLinks, h1, h2]
        rw [heq] at hl
        have hseen2 : ∀ k ∈ seen0, k ∈ seen ++ [linkKey hd] :=
          fun k hk => List.mem_append_left _ (hseen k hk)
        rcases ih (acc ++ [hd]) (seen ++ [linkKey hd]) hseen2 l hl with hmem | hq
        · rcases List.mem_append.mp hmem with ha | hb
          · left; exact ha
          · right
            have hlhd : l = hd := List.mem_singleton.mp hb
            subst hlhd
            obtain ⟨hs, ht⟩ := Bool.and_eq_true_iff.mp h2
            exact ⟨fun hc => h1 (hseen _ hc), hs, ht⟩
        · right; exact hq
      · have heq : addNewLinks m (hd :: tl) acc seen = addNewLinks m tl acc seen := by
          simp only [addNewLinks, if_neg h1]
          rw [if_neg h2]
        rw [heq] at hl
        exact ih acc seen hseen l hl

def prevCI : KnowledgeGraphData :=
  { nodes := [{ id := "Alice", group := "G", val := none },
              { id := "Bob", group := "G", val := none }],
    links := [] }

def linkCI : GraphLink := { source := "ALICE", target := "Bob", relationship := "knows" }

/-- C10: a link admitted by `updateGraph` (present in the result but not
in the previous links) shares its `(source, target, relationship)` triple
with no previous link, and both of its endpoint ids match — after
lowercasing — the lowercased id of some node of the merged node set; the
match is case-insensitive only: the concrete run admits a link whose
source string `"ALICE"` equals no node id exactly. -/
theorem link_admission_policy :
    (∀ (prev : KnowledgeGraphData) (newNodes : List GraphNode)
        (newLinks : List GraphLink) (l : GraphLink),
      l ∈ (updateGraph prev newNodes newLinks).links →
      l ∉ prev.links →
        (∀ l2 ∈ prev.links,
          ¬(l2.source = l.source ∧ l2.target = l.target
            ∧ l2.relationship = l.relationship))
      ∧ (∃ n ∈ (updateGraph prev newNodes newLinks).nodes,
            lowerCase n.id = lowerCase l.source)
      ∧ (∃ n ∈ (updateGraph prev newNodes newLinks).nodes,
            lowerCase n.id = lowerCase l.target))
  ∧ (linkCI ∈ (updateGraph prevCI [] [linkCI]).links
    ∧ ∀ n ∈ (updateGraph prevCI [] [linkCI]).nodes, n.id ≠ linkCI.source) := by
  constructor
  · intro prev newNodes newLinks l hmem hnot
    have hwf : WFEntries (addNewNodes (entriesOfNodes [] prev.nodes) newNodes) :=
      wf_addNewNodes newNodes _
        (wf_entriesOfNodes prev.nodes [] (fun p hp => by simp at hp))
    have hres : l ∈ (addNewLinks (addNewNodes (entriesOfNodes [] prev.nodes) newNodes)
        newLinks prev.links (prev.links.map linkKey)).1 := hmem
    rcases addNewLinks_adds_ok _ (prev.links.map linkKey) newLinks prev.links
        (prev.links.map linkKey) (fun k hk => hk) l hres with h | ⟨hkey, hsrc, htgt⟩
    · exact absurd h hnot
    · refine ⟨?_, ?_, ?_⟩
      · rintro l2 hl2 ⟨e1, e2, e3⟩
        apply hkey
        apply List.mem_map.mpr
        refine ⟨l2, hl2, ?_⟩
        unfold linkKey
        rw [e1, e2, e3]
      · obtain ⟨p, hp, hpk⟩ := (entriesHas_iff _ _).mp hsrc
        exact ⟨p.2, List.mem_map.mpr ⟨p, hp, rfl⟩, by rw [hwf p hp, hpk]⟩
      · obtain ⟨p, hp, hpk⟩ := (entriesHas_iff _ _).mp htgt
        exact ⟨p.2, List.mem_map.mpr ⟨p, hp, rfl⟩, by rw [hwf p hp, hpk]⟩
  · exact ⟨by decide, by decide⟩

theorem link_admission_policy_witness :
    (∀ l2 ∈ prevCI.links,
      ¬(l2.source = linkCI.source ∧ l2.target = linkCI.target
        ∧ l2.relationship = linkCI.relationship))
  ∧ (∃ n ∈ (updateGraph prevCI [] [linkCI]).nodes,
        lowerCase n.id = lowerCase linkCI.source)
  ∧ (∃ n ∈ (updateGraph prevCI [] [linkCI]).nodes,
        lowerCase n.id = lowerCase linkCI.target) :=
  link_admission_policy.1 prevCI [] [linkCI] linkCI (by decide) (by decide)
